import Mathlib

/-!
Verification of the per-IP rate limiter (token-bucket HTTP middleware).

Shallow embedding of the Go source: the bucket map `map[uint64]bucket` is an
association list with distinct keys, the buffered channel `keys` (a FIFO queue
of hashed keys) is a plain list bounded by the limiter's capacity, Go `float64`
token arithmetic is modelled with `ℚ`, and `time.Time` values by their
`UnixNano` integer.  Code paths that panic in Go (`panic("receive from h.keys
is blocked")`, `panic("push to h.keys is blocked")`, `panic("nil handler")`)
are modelled with `Option`: `none` is a panic.
-/

namespace IpRateLimit

/-- Per-key token bucket state: `left` tokens remaining (Go `float64`,
modelled as `ℚ`) and `mtime`, the last access time in nanoseconds since the
Unix epoch (`0` means "never accessed", as in the Go zero value). -/
structure Bucket where
  left : ℚ
  mtime : ℤ
  deriving DecidableEq, Repr

/-- The limiter's mutable state: the bucket map (association list keyed by the
64-bit hash of the IP, kept in insertion order with in-place updates) and the
FIFO queue of keys (front of the list = oldest, i.e. next to be received from
the channel). -/
structure Store where
  ipmap : List (ℕ × Bucket)
  keys : List ℕ
  deriving DecidableEq, Repr

/-- The immutable limiter configuration produced by `New`: `refillEvery` and
`burst` are the Go `float64` fields, `retryAfter` the precomputed Retry-After
second count, `maxCap` the capacity of both the map hint and the `keys`
channel (`cap(h.keys)`). -/
structure Limiter where
  refillEvery : ℚ
  burst : ℚ
  retryAfter : ℤ
  maxCap : ℕ
  deriving DecidableEq, Repr

/-- Go map lookup `h.ipmap[key]`. -/
def mapLookup : List (ℕ × Bucket) → ℕ → Option Bucket
  | [], _ => none
  | e :: rest, k => if e.1 = k then some e.2 else mapLookup rest k

/-- Go `delete(h.ipmap, k)`. -/
def mapDelete : List (ℕ × Bucket) → ℕ → List (ℕ × Bucket)
  | [], _ => []
  | e :: rest, k => if e.1 = k then mapDelete rest k else e :: mapDelete rest k

/-- Go map assignment `h.ipmap[key] = bkt`: update in place when the key is
present, append otherwise. -/
def mapInsert (m : List (ℕ × Bucket)) (k : ℕ) (b : Bucket) : List (ℕ × Bucket) :=
  if (mapLookup m k).isSome then m.map (fun e => if e.1 = k then (k, b) else e)
  else m ++ [(k, b)]

/-- The eviction sweep: `n` iterations of "non-blocking receive a key from the
channel, delete its map entry".  An empty queue mid-sweep is the Go panic
`receive from h.keys is blocked`, modelled as `none`. -/
def sweep : ℕ → List (ℕ × Bucket) → List ℕ → Option (List (ℕ × Bucket) × List ℕ)
  | 0, m, q => some (m, q)
  | n + 1, m, q =>
    match q with
    | [] => none
    | k :: rest => sweep n (mapDelete m k) rest

/-- The refill step of `limiter.allow` (lines guarded by `bkt.mtime != 0`):
add `elapsed / refillEvery` tokens when that amount is positive, clamped above
by `burst`. -/
def refill (l : Limiter) (bkt : Bucket) (now : ℤ) : Bucket :=
  if bkt.mtime ≠ 0 then
    let refillBy : ℚ := ((now - bkt.mtime : ℤ) : ℚ) / l.refillEvery
    if refillBy > 0 then
      let left := bkt.left + refillBy
      { bkt with left := if left > l.burst then l.burst else left }
    else bkt
  else bkt

/-- The refill / token-consumption / timestamp-update tail of `limiter.allow`
(everything after the queue bookkeeping): refill, consume a token when at
least one is left, and stamp `mtime = now` in both cases. -/
def admitStep (l : Limiter) (bkt : Bucket) (now : ℤ) : Bool × Bucket :=
  let bkt1 := refill l bkt now
  if bkt1.left ≥ 1 then (true, { left := bkt1.left - 1, mtime := now })
  else (false, { bkt1 with mtime := now })

/-- The admission check `limiter.allow`, for one hashed key at time `now`
(nanoseconds).  Returns `(admitted, evictDone)` and the updated store, or
`none` when the Go code would panic.  `evictDuration` is wall-clock
observability only and is not modelled. -/
def Limiter.allow (l : Limiter) (st : Store) (key : ℕ) (now : ℤ) :
    Option ((Bool × Bool) × Store) :=
  let found := mapLookup st.ipmap key
  let ok := found.isSome
  let bkt := found.getD { left := l.burst, mtime := 0 }
  let sweepRes : Option (List (ℕ × Bucket) × List ℕ × Bool) :=
    if st.ipmap.length ≥ l.maxCap then
      (sweep (l.maxCap / 10) st.ipmap st.keys).map (fun p => (p.1, p.2, true))
    else some (st.ipmap, st.keys, false)
  match sweepRes with
  | none => none
  | some (m1, q1, evictDone) =>
    let pushRes : Option (List ℕ) :=
      if ok then some q1
      else if q1.length < l.maxCap then some (q1 ++ [key]) else none
    match pushRes with
    | none => none
    | some q2 =>
      let res := admitStep l bkt now
      some ((res.1, evictDone), { ipmap := mapInsert m1 key res.2, keys := q2 })

/-- The store of a freshly constructed limiter: empty map, empty queue. -/
def emptyStore : Store := { ipmap := [], keys := [] }

/-- Run a sequence of admission checks (hashed key, time) from a store,
propagating a panic as `none`. -/
def Limiter.run (l : Limiter) (st : Store) : List (ℕ × ℤ) → Option Store
  | [] => some st
  | (k, t) :: rest =>
    match l.allow st k t with
    | none => none
    | some (_, st') => l.run st' rest

/-- Run a sequence of admission checks collecting the admit/reject outcomes. -/
def Limiter.outcomes (l : Limiter) (st : Store) : List (ℕ × ℤ) → Option (List Bool)
  | [] => some []
  | (k, t) :: rest =>
    match l.allow st k t with
    | none => none
    | some ((a, _), st') => (l.outcomes st' rest).map (a :: ·)

/-- All stores observable outside an in-flight update along a run: the start
store and the store after each completed check (a panic ends the run). -/
def Limiter.trace (l : Limiter) (st : Store) : List (ℕ × ℤ) → List Store
  | [] => [st]
  | (k, t) :: rest =>
    match l.allow st k t with
    | none => [st]
    | some (_, st') => st :: l.trace st' rest

/-- An IP address as Go's `net.IP`: a byte slice (4 bytes for IPv4, 16 for
IPv6). -/
abbrev IP := List ℕ

/-- Modelled from the Go standard library (`net.IP.To4`, an external
collaborator of this package): returns the 4-byte form when the address is
IPv4 (native or IPv4-in-IPv6), `nil` otherwise. -/
def To4 (ip : IP) : Option IP :=
  let bytes : List ℕ := ip
  if bytes.length = 4 then some bytes
  else if bytes.length = 16 ∧
      bytes.take 12 = [0, 0, 0, 0, 0, 0, 0, 0, 0, 0, 0xff, 0xff] then
    some (bytes.drop 12)
  else none

/-- The outcome of one request as seen by the client: either the inner
handler ran, or a 429 with the given Retry-After second count was served. -/
inductive Response where
  | downstream
  | tooManyRequests (retryAfter : ℤ)
  deriving DecidableEq, Repr

/-- The request handler `limiter.ServeHTTP` as a state transition.  `ipOpt` is the value returned
by the key-extraction function `h.ipfunc(r)` (`none` = Go `nil`), `hash`
models the external `xxhash.Sum64`, `now` is the check time.  Logging has no
state effect and is not modelled. -/
def Limiter.serveHTTP (l : Limiter) (hash : IP → ℕ) (st : Store) (ipOpt : Option IP)
    (now : ℤ) : Option (Response × Store) :=
  match ipOpt with
  | none => some (.downstream, st)
  | some ip =>
    match To4 ip with
    | none => some (.downstream, st)
    | some _ =>
      match l.allow st (hash ip) now with
      | none => none
      | some ((allowed, _), st') =>
        if allowed then some (.downstream, st')
        else some (.tooManyRequests l.retryAfter, st')

/-- Rate limiter configuration (`Config`): durations in nanoseconds.  The
`IPFunc` and `Logger` fields only select external collaborators and carry no
state, so they are not modelled. -/
structure Config where
  RefillEvery : ℤ
  Burst : ℤ
  MaxBuckets : ℤ
  deriving DecidableEq, Repr

/-- The package-level `defaultConfig`: refill every 100ms, burst 10, 100000
buckets. -/
def defaultConfig : Config :=
  { RefillEvery := 100000000, Burst := 10, MaxBuckets := 100000 }

/-- Construction of the limiter (`New`).  `hasHandler` is whether the wrapped
`http.Handler` is non-nil; a nil handler is `panic("nil handler")`, modelled
as `none`.  Out-of-range config values are replaced as in the source.
`retryAfter` is `int(interval.Truncate(time.Second)/time.Second) + 1` with
Go's truncated `%` and `/` on `int64`. -/
def New (hasHandler : Bool) (config : Option Config) : Option Limiter :=
  if !hasHandler then none
  else
    let cfg := config.getD defaultConfig
    let interval := if cfg.RefillEvery ≤ 0 then defaultConfig.RefillEvery else cfg.RefillEvery
    let burst := if cfg.Burst < 1 then 1 else cfg.Burst
    let maxCapacity := if cfg.MaxBuckets < 100 then defaultConfig.MaxBuckets else cfg.MaxBuckets
    let retryAfter := (interval - interval.tmod 1000000000).tdiv 1000000000 + 1
    some { refillEvery := (interval : ℚ), burst := (burst : ℚ),
           retryAfter := retryAfter, maxCap := maxCapacity.toNat }

/-- Bookkeeping invariant of the store: distinct map keys, distinct queued
keys, every queued key present in the map, and the map within capacity. -/
def StInv (l : Limiter) (st : Store) : Prop :=
  (st.ipmap.map Prod.fst).Nodup ∧ st.keys.Nodup ∧
    (∀ x ∈ st.keys, x ∈ st.ipmap.map Prod.fst) ∧ st.ipmap.length ≤ l.maxCap
/-- Token-range invariant: every bucket in the map holds between `0` and
`burst` tokens. -/
def BucketInv (l : Limiter) (st : Store) : Prop :=
  ∀ p ∈ st.ipmap, 0 ≤ p.2.left ∧ p.2.left ≤ l.burst
/-- A small concrete limiter, as `New` builds it from
`Config{RefillEvery: 100ms, Burst: 2, MaxBuckets: 100}` with a non-nil
handler. -/
def lA : Limiter :=
  { refillEvery := 100000000, burst := 2, retryAfter := 1, maxCap := 100 }
/-- The store after single immediate hits on each of `ks` (all fresh, all at
the same time): one bucket per key in insertion order, queue in the same
order. -/
def fillStore (ks : List ℕ) (v : Bucket) : Store :=
  { ipmap := ks.map (fun k => (k, v)), keys := ks }
/-- A limiter with burst 1, as `New` builds it from
`Config{RefillEvery: 100ms, Burst: 1, MaxBuckets: 100}`. -/
def lB : Limiter :=
  { refillEvery := 100000000, burst := 1, retryAfter := 1, maxCap := 100 }
/-- A limiter as `New` builds it from a 500ms refill interval
(`Config{RefillEvery: 500ms, Burst: 2, MaxBuckets: 100}`). -/
def lC : Limiter :=
  { refillEvery := 500000000, burst := 2, retryAfter := 1, maxCap := 100 }
/-- A limiter with a 2ns refill interval and burst 1, for exercising the
refill arithmetic at small time scales. -/
def lC2 : Limiter := { refillEvery := 2, burst := 1, retryAfter := 1, maxCap := 100 }

/-! ### Basic facts about the map and queue primitives -/
theorem mapLookup_mem {m : List (ℕ × Bucket)} {k : ℕ} {b : Bucket}
    (h : mapLookup m k = some b) : (k, b) ∈ m := by
  induction m with
  | nil => simp [mapLookup] at h
  | cons e rest ih =>
    by_cases he : e.1 = k
    · simp only [mapLookup, if_pos he, Option.some.injEq] at h
      exact List.mem_cons.mpr (Or.inl (by rw [← he, ← h]))
    · simp only [mapLookup, if_neg he] at h
      exact List.mem_cons_of_mem _ (ih h)

theorem mapLookup_eq_none_iff (m : List (ℕ × Bucket)) (k : ℕ) :
    mapLookup m k = none ↔ k ∉ m.map Prod.fst := by
  induction m with
  | nil => simp [mapLookup]
  | cons e rest ih =>
    by_cases h : e.1 = k
    · simp only [mapLookup, if_pos h, List.map_cons, List.mem_cons]
      constructor
      · intro hc
        exact absurd hc (by simp)
      · intro hc
        exact absurd (Or.inl h.symm) hc
    · simp only [mapLookup, if_neg h, List.map_cons, List.mem_cons, ih]
      constructor
      · intro h1 h2
        rcases h2 with h2 | h2
        · exact h h2.symm
        · exact h1 h2
      · intro h1 h2
        exact h1 (Or.inr h2)

theorem mapLookup_isSome_iff (m : List (ℕ × Bucket)) (k : ℕ) :
    (mapLookup m k).isSome = true ↔ k ∈ m.map Prod.fst := by
  rcases ho : mapLookup m k with _ | b
  · simp only [Option.isSome_none, Bool.false_eq_true, false_iff]
    exact (mapLookup_eq_none_iff m k).mp ho
  · simp only [Option.isSome_some, true_iff]
    exact List.mem_map.mpr ⟨(k, b), mapLookup_mem ho, rfl⟩

theorem mem_mapDelete {m : List (ℕ × Bucket)} {k : ℕ} {p : ℕ × Bucket}
    (h : p ∈ mapDelete m k) : p ∈ m := by
  induction m with
  | nil => simp [mapDelete] at h
  | cons e rest ih =>
    by_cases he : e.1 = k
    · simp only [mapDelete, if_pos he] at h
      exact List.mem_cons_of_mem _ (ih h)
    · simp only [mapDelete, if_neg he, List.mem_cons] at h
      rcases h with h | h
      · exact h ▸ List.mem_cons_self _ _
      · exact List.mem_cons_of_mem _ (ih h)

theorem mem_keys_mapDelete (m : List (ℕ × Bucket)) (k k' : ℕ) :
    k' ∈ (mapDelete m k).map Prod.fst ↔ k' ∈ m.map Prod.fst ∧ k' ≠ k := by
  induction m with
  | nil => simp [mapDelete]
  | cons e rest ih =>
    by_cases he : e.1 = k
    · simp only [mapDelete, if_pos he, ih, List.map_cons, List.mem_cons]
      constructor
      · rintro ⟨h1, h2⟩
        exact ⟨Or.inr h1, h2⟩
      · rintro ⟨h1 | h1, h2⟩
        · exact absurd (h1.trans he) h2
        · exact ⟨h1, h2⟩
    · simp only [mapDelete, if_neg he, List.map_cons, List.mem_cons, ih]
      constructor
      · rintro (h1 | ⟨h1, h2⟩)
        · exact ⟨Or.inl h1, fun hk => he (by rw [← h1, hk])⟩
        · exact ⟨Or.inr h1, h2⟩
      · rintro ⟨h1 | h1, h2⟩
        · exact Or.inl h1
        · exact Or.inr ⟨h1, h2⟩

theorem nodup_keys_mapDelete {m : List (ℕ × Bucket)} (k : ℕ)
    (h : (m.map Prod.fst).Nodup) : ((mapDelete m k).map Prod.fst).Nodup := by
  induction m with
  | nil => simp [mapDelete]
  | cons e rest ih =>
    simp only [List.map_cons, List.nodup_cons] at h
    by_cases he : e.1 = k
    · simp only [mapDelete, if_pos he]
      exact ih h.2
    · simp only [mapDelete, if_neg he, List.map_cons, List.nodup_cons]
      refine ⟨fun hc => ?_, ih h.2⟩
      exact h.1 ((mem_keys_mapDelete rest k e.1).mp hc).1

theorem mapDelete_of_not_mem {m : List (ℕ × Bucket)} {k : ℕ}
    (h : k ∉ m.map Prod.fst) : mapDelete m k = m := by
  induction m with
  | nil => rfl
  | cons e rest ih =>
    simp only [List.map_cons, List.mem_cons] at h
    push_neg at h
    have he : ¬ e.1 = k := fun he => h.1 he.symm
    simp only [mapDelete, if_neg he, List.cons.injEq, true_and]
    exact ih h.2

theorem length_mapDelete_of_mem {m : List (ℕ × Bucket)} {k : ℕ}
    (hnd : (m.map Prod.fst).Nodup) (hk : k ∈ m.map Prod.fst) :
    (mapDelete m k).length + 1 = m.length := by
  induction m with
  | nil => simp at hk
  | cons e rest ih =>
    simp only [List.map_cons, List.nodup_cons] at hnd
    simp only [List.map_cons, List.mem_cons] at hk
    by_cases he : e.1 = k
    · have hrest : mapDelete rest k = rest := mapDelete_of_not_mem (he ▸ hnd.1)
      simp only [mapDelete, if_pos he, hrest, List.length_cons]
    · rcases hk with hk | hk
      · exact absurd hk.symm he
      · simp only [mapDelete, if_neg he, List.length_cons]
        rw [← ih hnd.2 hk]



theorem keys_map_update (m : List (ℕ × Bucket)) (k : ℕ) (b : Bucket) :
    (m.map (fun e => if e.1 = k then (k, b) else e)).map Prod.fst = m.map Prod.fst := by
  induction m with
  | nil => rfl
  | cons e rest ih =>
    simp only [List.map_cons, ih, List.cons.injEq, and_true]
    by_cases he : e.1 = k
    · rw [if_pos he, he]
    · rw [if_neg he]

theorem mapInsert_present {m : List (ℕ × Bucket)} {k : ℕ} (b : Bucket)
    (h : (mapLookup m k).isSome = true) :
    mapInsert m k b = m.map (fun e => if e.1 = k then (k, b) else e) := by
  rw [mapInsert, if_pos h]

theorem mapInsert_absent {m : List (ℕ × Bucket)} {k : ℕ} (b : Bucket)
    (h : mapLookup m k = none) : mapInsert m k b = m ++ [(k, b)] := by
  rw [mapInsert, if_neg]
  rw [h]
  simp

theorem keys_mapInsert_present {m : List (ℕ × Bucket)} {k : ℕ} (b : Bucket)
    (h : (mapLookup m k).isSome = true) :
    (mapInsert m k b).map Prod.fst = m.map Prod.fst := by
  rw [mapInsert_present b h]
  exact keys_map_update m k b

theorem keys_mapInsert_absent {m : List (ℕ × Bucket)} {k : ℕ} (b : Bucket)
    (h : mapLookup m k = none) :
    (mapInsert m k b).map Prod.fst = m.map Prod.fst ++ [k] := by
  rw [mapInsert_absent b h]
  simp

theorem length_mapInsert_present {m : List (ℕ × Bucket)} {k : ℕ} (b : Bucket)
    (h : (mapLookup m k).isSome = true) :
    (mapInsert m k b).length = m.length := by
  rw [mapInsert_present b h, List.length_map]

theorem length_mapInsert_absent {m : List (ℕ × Bucket)} {k : ℕ} (b : Bucket)
    (h : mapLookup m k = none) :
    (mapInsert m k b).length = m.length + 1 := by
  rw [mapInsert_absent b h]
  simp

theorem mem_mapInsert {m : List (ℕ × Bucket)} {k : ℕ} {b : Bucket} {p : ℕ × Bucket}
    (hp : p ∈ mapInsert m k b) : p = (k, b) ∨ p ∈ m := by
  rw [mapInsert] at hp
  split at hp
  · rcases List.mem_map.mp hp with ⟨e, he, hfe⟩
    by_cases hek : e.1 = k
    · rw [if_pos hek] at hfe
      exact Or.inl hfe.symm
    · rw [if_neg hek] at hfe
      exact Or.inr (hfe ▸ he)
  · rcases List.mem_append.mp hp with h | h
    · exact Or.inr h
    · exact Or.inl (by simpa using h)

theorem lookup_update_ne (m : List (ℕ × Bucket)) {k k' : ℕ} (b : Bucket)
    (h : k' ≠ k) :
    mapLookup (m.map (fun e => if e.1 = k then (k, b) else e)) k' = mapLookup m k' := by
  induction m with
  | nil => rfl
  | cons e rest ih =>
    simp only [List.map_cons, mapLookup]
    by_cases hek : e.1 = k
    · rw [if_pos hek]
      have h1 : ¬ ((k, b).1 = k') := fun hkk => h hkk.symm
      have h2 : ¬ (e.1 = k') := fun hkk => h (hek.symm.trans hkk).symm
      rw [if_neg h1, if_neg h2]
      exact ih
    · rw [if_neg hek]
      by_cases hek' : e.1 = k'
      · rw [if_pos hek', if_pos hek']
      · rw [if_neg hek', if_neg hek']
        exact ih

theorem lookup_append_ne (m : List (ℕ × Bucket)) {k k' : ℕ} (b : Bucket)
    (h : k' ≠ k) : mapLookup (m ++ [(k, b)]) k' = mapLookup m k' := by
  induction m with
  | nil =>
    simp only [List.nil_append, mapLookup]
    rw [if_neg (fun hkk => h hkk.symm)]
  | cons e rest ih =>
    simp only [List.cons_append, mapLookup]
    by_cases hek' : e.1 = k'
    · rw [if_pos hek', if_pos hek']
    · rw [if_neg hek', if_neg hek']
      exact ih

theorem mapLookup_mapInsert_ne (m : List (ℕ × Bucket)) {k k' : ℕ} (b : Bucket)
    (h : k' ≠ k) : mapLookup (mapInsert m k b) k' = mapLookup m k' := by
  rw [mapInsert]
  split
  · exact lookup_update_ne m b h
  · exact lookup_append_ne m b h

theorem lookup_update_self {m : List (ℕ × Bucket)} {k : ℕ} (b : Bucket)
    (h : (mapLookup m k).isSome = true) :
    mapLookup (m.map (fun e => if e.1 = k then (k, b) else e)) k = some b := by
  induction m with
  | nil => simp [mapLookup] at h
  | cons e rest ih =>
    simp only [List.map_cons, mapLookup]
    by_cases hek : e.1 = k
    · rw [if_pos hek]
      simp
    · rw [if_neg hek]
      rw [if_neg hek]
      apply ih
      simp only [mapLookup, if_neg hek] at h
      exact h

theorem lookup_append_self (m : List (ℕ × Bucket)) (k : ℕ) (b : Bucket) :
    mapLookup m k = none → mapLookup (m ++ [(k, b)]) k = some b := by
  induction m with
  | nil =>
    intro _
    simp [mapLookup]
  | cons e rest ih =>
    intro h
    simp only [mapLookup] at h
    by_cases hek : e.1 = k
    · rw [if_pos hek] at h
      exact absurd h (by simp)
    · rw [if_neg hek] at h
      simp only [List.cons_append, mapLookup, if_neg hek]
      exact ih h

theorem mapLookup_mapInsert_self (m : List (ℕ × Bucket)) (k : ℕ) (b : Bucket) :
    mapLookup (mapInsert m k b) k = some b := by
  rw [mapInsert]
  split
  · exact lookup_update_self b (by assumption)
  · rename_i h
    exact lookup_append_self m k b (Option.not_isSome_iff_eq_none.mp h)

/-! ### Sweep lemmas and case analysis of `limiter.allow` -/

theorem sweep_subset : ∀ {n : ℕ} {m : List (ℕ × Bucket)} {q : List ℕ} {m' q'},
    sweep n m q = some (m', q') → ∀ p ∈ m', p ∈ m := by
  intro n
  induction n with
  | zero =>
    intro m q m' q' h p hp
    simp only [sweep, Option.some.injEq, Prod.mk.injEq] at h
    exact h.1 ▸ hp
  | succ n ih =>
    intro m q m' q' h p hp
    cases q with
    | nil => simp [sweep] at h
    | cons k rest =>
      simp only [sweep] at h
      exact mem_mapDelete (ih h p hp)

theorem sweep_spec : ∀ {n : ℕ} {m : List (ℕ × Bucket)} {q : List ℕ} {m' q'},
    (m.map Prod.fst).Nodup → q.Nodup → (∀ x ∈ q, x ∈ m.map Prod.fst) →
    sweep n m q = some (m', q') →
    q' = q.drop n ∧ m'.length + n = m.length ∧ (m'.map Prod.fst).Nodup ∧
      (∀ x ∈ q', x ∈ m'.map Prod.fst) := by
  intro n
  induction n with
  | zero =>
    intro m q m' q' h1 h2 h3 h
    simp only [sweep, Option.some.injEq, Prod.mk.injEq] at h
    obtain ⟨hm, hq⟩ := h
    subst hm; subst hq
    exact ⟨rfl, by omega, h1, h3⟩
  | succ n ih =>
    intro m q m' q' h1 h2 h3 h
    cases q with
    | nil => simp [sweep] at h
    | cons k rest =>
      simp only [sweep] at h
      have hk : k ∈ m.map Prod.fst := h3 k (List.mem_cons_self _ _)
      have h2' := List.nodup_cons.mp h2
      have hcov : ∀ x ∈ rest, x ∈ (mapDelete m k).map Prod.fst := by
        intro x hx
        exact (mem_keys_mapDelete m k x).mpr
          ⟨h3 x (List.mem_cons_of_mem _ hx), fun hxk => h2'.1 (hxk ▸ hx)⟩
      obtain ⟨e1, e2, e3, e4⟩ := ih (nodup_keys_mapDelete k h1) h2'.2 hcov h
      refine ⟨by simpa using e1, ?_, e3, e4⟩
      have := length_mapDelete_of_mem h1 hk
      omega

theorem allow_found_no_sweep {l : Limiter} {st : Store} {key : ℕ} {b : Bucket} (now : ℤ)
    (hlen : st.ipmap.length < l.maxCap) (hb : mapLookup st.ipmap key = some b) :
    l.allow st key now = some (((admitStep l b now).1, false),
      { ipmap := mapInsert st.ipmap key (admitStep l b now).2, keys := st.keys }) := by
  unfold Limiter.allow
  rw [hb, if_neg (by omega)]
  simp

theorem allow_new_no_sweep {l : Limiter} {st : Store} {key : ℕ} (now : ℤ)
    (hlen : st.ipmap.length < l.maxCap) (hb : mapLookup st.ipmap key = none)
    (hq : st.keys.length < l.maxCap) :
    l.allow st key now = some (((admitStep l { left := l.burst, mtime := 0 } now).1, false),
      { ipmap := mapInsert st.ipmap key (admitStep l { left := l.burst, mtime := 0 } now).2,
        keys := st.keys ++ [key] }) := by
  unfold Limiter.allow
  rw [hb, if_neg (by omega)]
  simp [hq]

theorem allow_found_sweep {l : Limiter} {st : Store} {key : ℕ} {b : Bucket} (now : ℤ)
    {m1 : List (ℕ × Bucket)} {q1 : List ℕ}
    (hlen : l.maxCap ≤ st.ipmap.length) (hb : mapLookup st.ipmap key = some b)
    (hs : sweep (l.maxCap / 10) st.ipmap st.keys = some (m1, q1)) :
    l.allow st key now = some (((admitStep l b now).1, true),
      { ipmap := mapInsert m1 key (admitStep l b now).2, keys := q1 }) := by
  unfold Limiter.allow
  rw [hb, if_pos (by omega), hs]
  simp

theorem allow_new_sweep {l : Limiter} {st : Store} {key : ℕ} (now : ℤ)
    {m1 : List (ℕ × Bucket)} {q1 : List ℕ}
    (hlen : l.maxCap ≤ st.ipmap.length) (hb : mapLookup st.ipmap key = none)
    (hs : sweep (l.maxCap / 10) st.ipmap st.keys = some (m1, q1))
    (hq : q1.length < l.maxCap) :
    l.allow st key now = some (((admitStep l { left := l.burst, mtime := 0 } now).1, true),
      { ipmap := mapInsert m1 key (admitStep l { left := l.burst, mtime := 0 } now).2,
        keys := q1 ++ [key] }) := by
  unfold Limiter.allow
  rw [hb, if_pos (by omega), hs]
  simp [hq]

theorem allow_new_sweep_full {l : Limiter} {st : Store} {key : ℕ} (now : ℤ)
    {m1 : List (ℕ × Bucket)} {q1 : List ℕ}
    (hlen : l.maxCap ≤ st.ipmap.length) (hb : mapLookup st.ipmap key = none)
    (hs : sweep (l.maxCap / 10) st.ipmap st.keys = some (m1, q1))
    (hq : ¬ q1.length < l.maxCap) :
    l.allow st key now = none := by
  unfold Limiter.allow
  rw [hb, if_pos (by omega), hs]
  simp [hq]

theorem allow_sweep_panic {l : Limiter} {st : Store} {key : ℕ} (now : ℤ)
    (hlen : l.maxCap ≤ st.ipmap.length)
    (hs : sweep (l.maxCap / 10) st.ipmap st.keys = none) :
    l.allow st key now = none := by
  unfold Limiter.allow
  rw [if_pos (by omega), hs]
  simp

/-! ### The store bookkeeping invariant -/

theorem StInv_empty (l : Limiter) : StInv l emptyStore := by
  refine ⟨List.nodup_nil, List.nodup_nil, ?_, by simp [emptyStore]⟩
  intro x hx
  simp [emptyStore] at hx

theorem StInv_preserved {l : Limiter} {st st' : Store} {key : ℕ} {now : ℤ}
    {res : Bool × Bool} (hcap : 10 ≤ l.maxCap) (hinv : StInv l st)
    (h : l.allow st key now = some (res, st')) : StInv l st' := by
  obtain ⟨hnd, hqnd, hcov, hlen⟩ := hinv
  by_cases hsw : st.ipmap.length ≥ l.maxCap
  · -- the sweep runs; it must have succeeded
    rcases hs : sweep (l.maxCap / 10) st.ipmap st.keys with _ | p
    · rw [allow_sweep_panic now (by omega) hs] at h
      cases h
    · obtain ⟨m1, q1⟩ := p
      obtain ⟨e1, e2, e3, e4⟩ := sweep_spec hnd hqnd hcov hs
      have hq1nd : q1.Nodup := e1 ▸ hqnd.sublist (List.drop_sublist _ _)
      have hm : st.ipmap.length = l.maxCap := by omega
      have hdiv : 1 ≤ l.maxCap / 10 := by omega
      have hdiv2 : l.maxCap / 10 ≤ l.maxCap := Nat.div_le_self _ _
      have hm1len : m1.length + l.maxCap / 10 = l.maxCap := by omega
      rcases hb : mapLookup st.ipmap key with _ | b
      · -- new key: pushed after the sweep
        by_cases hq : q1.length < l.maxCap
        · rw [allow_new_sweep now (by omega) hb hs hq] at h
          obtain ⟨-, rfl⟩ := by
            simpa only [Option.some.injEq, Prod.mk.injEq] using h
          have hnot : mapLookup m1 key = none := by
            rw [mapLookup_eq_none_iff] at hb ⊢
            intro hc
            exact hb (List.mem_map.mp hc |>.elim fun p hp =>
              List.mem_map.mpr ⟨p, sweep_subset hs p hp.1, hp.2⟩)
          refine ⟨?_, ?_, ?_, ?_⟩
          · rw [keys_mapInsert_absent _ hnot]
            refine List.Nodup.append e3 (List.nodup_singleton key) ?_
            intro x hx hx'
            simp only [List.mem_singleton] at hx'
            subst hx'
            rw [mapLookup_eq_none_iff] at hb
            exact hb (List.mem_map.mp hx |>.elim fun p hp =>
              List.mem_map.mpr ⟨p, sweep_subset hs p hp.1, hp.2⟩)
          · refine List.Nodup.append hq1nd (List.nodup_singleton key) ?_
            intro x hx hx'
            simp only [List.mem_singleton] at hx'
            subst hx'
            rw [mapLookup_eq_none_iff] at hb
            exact hb (List.mem_map.mp (e4 x hx) |>.elim fun p hp =>
              List.mem_map.mpr ⟨p, sweep_subset hs p hp.1, hp.2⟩)
          · intro x hx
            rw [keys_mapInsert_absent _ hnot]
            rcases List.mem_append.mp hx with hx | hx
            · exact List.mem_append.mpr (Or.inl (e4 x hx))
            · exact List.mem_append.mpr (Or.inr hx)
          · rw [length_mapInsert_absent _ hnot]
            omega
        · rw [allow_new_sweep_full now (by omega) hb hs hq] at h
          cases h
      · -- existing key: no push
        rw [allow_found_sweep now (by omega) hb hs] at h
        obtain ⟨-, rfl⟩ := by
          simpa only [Option.some.injEq, Prod.mk.injEq] using h
        rcases hm1 : mapLookup m1 key with _ | b1
        · refine ⟨?_, hq1nd, ?_, ?_⟩
          · rw [keys_mapInsert_absent _ hm1]
            refine List.Nodup.append e3 (List.nodup_singleton key) ?_
            intro x hx hx'
            simp only [List.mem_singleton] at hx'
            subst hx'
            rw [mapLookup_eq_none_iff] at hm1
            exact hm1 hx
          · intro x hx
            rw [keys_mapInsert_absent _ hm1]
            exact List.mem_append.mpr (Or.inl (e4 x hx))
          · rw [length_mapInsert_absent _ hm1]
            omega
        · have hsome : (mapLookup m1 key).isSome = true := by rw [hm1]; rfl
          refine ⟨?_, hq1nd, ?_, ?_⟩
          · rw [keys_mapInsert_present _ hsome]
            exact e3
          · intro x hx
            rw [keys_mapInsert_present _ hsome]
            exact e4 x hx
          · rw [length_mapInsert_present _ hsome]
            omega
  · -- below capacity: no sweep
    push_neg at hsw
    rcases hb : mapLookup st.ipmap key with _ | b
    · have hq : st.keys.length < l.maxCap := by
        have : st.keys.length ≤ st.ipmap.length := by
          have hsub : st.keys.Subset (st.ipmap.map Prod.fst) := hcov
          calc st.keys.length = st.keys.toFinset.card := by
                rw [List.toFinset_card_of_nodup hqnd]
            _ ≤ (st.ipmap.map Prod.fst).toFinset.card := by
                apply Finset.card_le_card
                intro x hx
                rw [List.mem_toFinset] at hx ⊢
                exact hsub hx
            _ ≤ (st.ipmap.map Prod.fst).length := (st.ipmap.map Prod.fst).toFinset_card_le
            _ = st.ipmap.length := List.length_map _ _
        omega
      rw [allow_new_no_sweep now hsw hb hq] at h
      obtain ⟨-, rfl⟩ := by
        simpa only [Option.some.injEq, Prod.mk.injEq] using h
      refine ⟨?_, ?_, ?_, ?_⟩
      · rw [keys_mapInsert_absent _ hb]
        refine List.Nodup.append hnd (List.nodup_singleton key) ?_
        intro x hx hx'
        simp only [List.mem_singleton] at hx'
        subst hx'
        rw [mapLookup_eq_none_iff] at hb
        exact hb hx
      · refine List.Nodup.append hqnd (List.nodup_singleton key) ?_
        intro x hx hx'
        simp only [List.mem_singleton] at hx'
        subst hx'
        rw [mapLookup_eq_none_iff] at hb
        exact hb (hcov x hx)
      · intro x hx
        rw [keys_mapInsert_absent _ hb]
        rcases List.mem_append.mp hx with hx | hx
        · exact List.mem_append.mpr (Or.inl (hcov x hx))
        · exact List.mem_append.mpr (Or.inr hx)
      · rw [length_mapInsert_absent _ hb]
        omega
    · have hsome : (mapLookup st.ipmap key).isSome = true := by rw [hb]; rfl
      rw [allow_found_no_sweep now hsw hb] at h
      obtain ⟨-, rfl⟩ := by
        simpa only [Option.some.injEq, Prod.mk.injEq] using h
      refine ⟨?_, hqnd, ?_, ?_⟩
      · rw [keys_mapInsert_present _ hsome]
        exact hnd
      · intro x hx
        rw [keys_mapInsert_present _ hsome]
        exact hcov x hx
      · rw [length_mapInsert_present _ hsome]
        omega

/-! ### Refill and admission arithmetic -/

theorem refill_mtime (l : Limiter) (bkt : Bucket) (now : ℤ) :
    (refill l bkt now).mtime = bkt.mtime := by
  unfold refill
  split
  · dsimp only
    split <;> rfl
  · rfl

theorem refill_left_bounds {l : Limiter} {bkt : Bucket} (now : ℤ)
    (hub : bkt.left ≤ l.burst) :
    bkt.left ≤ (refill l bkt now).left ∧ (refill l bkt now).left ≤ l.burst := by
  unfold refill
  split
  · dsimp only
    split
    · rename_i hpos
      split
      · exact ⟨hub, le_refl _⟩
      · rename_i hle
        push_neg at hle
        exact ⟨by linarith, hle⟩
    · exact ⟨le_refl _, hub⟩
  · exact ⟨le_refl _, hub⟩

theorem admitStep_mtime (l : Limiter) (bkt : Bucket) (now : ℤ) :
    (admitStep l bkt now).2.mtime = now := by
  unfold admitStep
  dsimp only
  split <;> rfl

theorem admitStep_left_bounds {l : Limiter} {bkt : Bucket} (now : ℤ)
    (h0 : 0 ≤ bkt.left) (hub : bkt.left ≤ l.burst) :
    0 ≤ (admitStep l bkt now).2.left ∧ (admitStep l bkt now).2.left ≤ l.burst := by
  obtain ⟨hlo, hhi⟩ := refill_left_bounds now hub
  unfold admitStep
  dsimp only
  split
  · rename_i hge
    dsimp only
    exact ⟨by linarith, by linarith⟩
  · dsimp only
    exact ⟨le_trans h0 hlo, hhi⟩

theorem refill_same (l : Limiter) (q : ℚ) (t : ℤ) :
    refill l { left := q, mtime := t } t = { left := q, mtime := t } := by
  unfold refill
  split
  · simp
  · rfl

theorem refill_fresh (l : Limiter) (q : ℚ) (now : ℤ) :
    refill l { left := q, mtime := 0 } now = { left := q, mtime := 0 } := by
  unfold refill
  simp

theorem admitStep_same_one {l : Limiter} {q : ℚ} (t : ℤ) (h : 1 ≤ q) :
    admitStep l { left := q, mtime := t } t = (true, { left := q - 1, mtime := t }) := by
  unfold admitStep
  rw [refill_same]
  dsimp only
  rw [if_pos h]

theorem admitStep_same_reject {l : Limiter} {q : ℚ} (t : ℤ) (h : ¬ 1 ≤ q) :
    admitStep l { left := q, mtime := t } t = (false, { left := q, mtime := t }) := by
  unfold admitStep
  rw [refill_same]
  dsimp only
  rw [if_neg h]

theorem admitStep_fresh_one {l : Limiter} (now : ℤ) (h : 1 ≤ l.burst) :
    admitStep l { left := l.burst, mtime := 0 } now =
      (true, { left := l.burst - 1, mtime := now }) := by
  unfold admitStep
  rw [refill_fresh]
  dsimp only
  rw [if_pos h]

/-! ### The token-range invariant -/

/-- Any bucket of the post-state is either an untouched bucket of the
pre-state or the freshly written bucket of the checked key. -/
theorem allow_mem_cases {l : Limiter} {st st' : Store} {key : ℕ} {now : ℤ}
    {res : Bool × Bool} (h : l.allow st key now = some (res, st')) :
    ∀ p ∈ st'.ipmap, p ∈ st.ipmap ∨
      p = (key, (admitStep l ((mapLookup st.ipmap key).getD
        { left := l.burst, mtime := 0 }) now).2) := by
  by_cases hsw : st.ipmap.length ≥ l.maxCap
  · rcases hs : sweep (l.maxCap / 10) st.ipmap st.keys with _ | p1
    · rw [allow_sweep_panic now (by omega) hs] at h
      cases h
    · obtain ⟨m1, q1⟩ := p1
      rcases hb : mapLookup st.ipmap key with _ | b
      · by_cases hq : q1.length < l.maxCap
        · rw [allow_new_sweep now (by omega) hb hs hq] at h
          obtain ⟨-, rfl⟩ := by
            simpa only [Option.some.injEq, Prod.mk.injEq] using h
          intro p hp
          rcases mem_mapInsert hp with hp | hp
          · exact Or.inr (by rw [hp]; rfl)
          · exact Or.inl (sweep_subset hs p hp)
        · rw [allow_new_sweep_full now (by omega) hb hs hq] at h
          cases h
      · rw [allow_found_sweep now (by omega) hb hs] at h
        obtain ⟨-, rfl⟩ := by
          simpa only [Option.some.injEq, Prod.mk.injEq] using h
        intro p hp
        rcases mem_mapInsert hp with hp | hp
        · exact Or.inr (by rw [hp]; rfl)
        · exact Or.inl (sweep_subset hs p hp)
  · push_neg at hsw
    rcases hb : mapLookup st.ipmap key with _ | b
    · by_cases hq : st.keys.length < l.maxCap
      · rw [allow_new_no_sweep now hsw hb hq] at h
        obtain ⟨-, rfl⟩ := by
          simpa only [Option.some.injEq, Prod.mk.injEq] using h
        intro p hp
        rcases mem_mapInsert hp with hp | hp
        · exact Or.inr (by rw [hp]; rfl)
        · exact Or.inl hp
      · exfalso
        revert h
        unfold Limiter.allow
        rw [hb, if_neg (by omega)]
        simp [hq]
    · rw [allow_found_no_sweep now hsw hb] at h
      obtain ⟨-, rfl⟩ := by
        simpa only [Option.some.injEq, Prod.mk.injEq] using h
      intro p hp
      rcases mem_mapInsert hp with hp | hp
      · exact Or.inr (by rw [hp]; rfl)
      · exact Or.inl hp

theorem BucketInv_preserved {l : Limiter} {st st' : Store} {key : ℕ} {now : ℤ}
    {res : Bool × Bool} (hburst : 1 ≤ l.burst) (hinv : BucketInv l st)
    (h : l.allow st key now = some (res, st')) : BucketInv l st' := by
  intro p hp
  rcases allow_mem_cases h p hp with hmem | heq
  · exact hinv p hmem
  · subst heq
    rcases hb : mapLookup st.ipmap key with _ | b
    · dsimp only [Option.getD_none]
      exact admitStep_left_bounds now (by linarith) (le_refl _)
    · dsimp only [Option.getD_some]
      obtain ⟨h0, hub⟩ := hinv (key, b) (mapLookup_mem hb)
      exact admitStep_left_bounds now h0 hub

/-! ### Repeated checks on a single key -/

theorem allow_single_bucket {l : Limiter} (hcap : 2 ≤ l.maxCap) (key : ℕ) (now : ℤ)
    (q : ℚ) :
    l.allow { ipmap := [(key, { left := q, mtime := now })], keys := [key] } key now =
      some ((if 1 ≤ q then true else false, false),
        { ipmap := [(key, { left := if 1 ≤ q then q - 1 else q, mtime := now })],
          keys := [key] }) := by
  have hlook : mapLookup [(key, { left := q, mtime := now })] key
      = some { left := q, mtime := now } := by
    simp [mapLookup]
  rw [allow_found_no_sweep now (by simp; omega) hlook]
  by_cases h1 : 1 ≤ q
  · rw [admitStep_same_one now h1]
    simp [mapInsert, mapLookup, h1]
  · rw [admitStep_same_reject now h1]
    simp [mapInsert, mapLookup, h1]

theorem outcomes_const_key {l : Limiter} (hcap : 2 ≤ l.maxCap) (key : ℕ) (now : ℤ) :
    ∀ (n c : ℕ),
      l.outcomes { ipmap := [(key, { left := (c : ℚ), mtime := now })], keys := [key] }
        (List.replicate n (key, now)) =
      some (List.replicate (min n c) true ++ List.replicate (n - c) false) := by
  intro n
  induction n with
  | zero =>
    intro c
    simp [Limiter.outcomes]
  | succ n ih =>
    intro c
    rw [List.replicate_succ]
    rcases c with _ | c
    · have h1 : ¬ (1 : ℚ) ≤ ((0 : ℕ) : ℚ) := by norm_num
      simp only [Limiter.outcomes, allow_single_bucket hcap key now ((0 : ℕ) : ℚ),
        if_neg h1]
      rw [ih 0]
      simp [List.replicate_succ]
    · have h1 : (1 : ℚ) ≤ ((c + 1 : ℕ) : ℚ) := by
        push_cast
        linarith [@Nat.cast_nonneg ℚ _ c]
      have hsub : ((c + 1 : ℕ) : ℚ) - 1 = ((c : ℕ) : ℚ) := by push_cast; ring
      simp only [Limiter.outcomes, allow_single_bucket hcap key now ((c + 1 : ℕ) : ℚ),
        if_pos h1, hsub]
      rw [ih c]
      have hmin : min (n + 1) (c + 1) = min n c + 1 := by omega
      have hsub2 : n + 1 - (c + 1) = n - c := by omega
      simp only [Option.map_some', Option.some.injEq]
      rw [hmin, hsub2, List.replicate_succ, List.cons_append]

/-! ### The store invariant along every run -/

theorem StInv_trace {l : Limiter} (hcap : 10 ≤ l.maxCap) :
    ∀ (reqs : List (ℕ × ℤ)) (st : Store), StInv l st →
      ∀ st' ∈ l.trace st reqs, StInv l st' := by
  intro reqs
  induction reqs with
  | nil =>
    intro st hst st' hmem
    simp only [Limiter.trace, List.mem_singleton] at hmem
    exact hmem ▸ hst
  | cons kt rest ih =>
    intro st hst st' hmem
    obtain ⟨k, t⟩ := kt
    rcases ha : l.allow st k t with _ | pr
    · simp only [Limiter.trace, ha, List.mem_singleton] at hmem
      exact hmem ▸ hst
    · obtain ⟨res, st1⟩ := pr
      simp only [Limiter.trace, ha, List.mem_cons] at hmem
      rcases hmem with rfl | hmem
      · exact hst
      · exact ih st1 (StInv_preserved hcap hst ha) st' hmem

/-- On a successful check that found the map at (or beyond) capacity, the
eviction sweep ran: `evictDone` is reported true. -/
theorem evict_before_insert {l : Limiter} {st st' : Store} {key : ℕ} {now : ℤ}
    {res : Bool × Bool} (hlen : l.maxCap ≤ st.ipmap.length)
    (h : l.allow st key now = some (res, st')) : res.2 = true := by
  rcases hs : sweep (l.maxCap / 10) st.ipmap st.keys with _ | p1
  · rw [allow_sweep_panic now hlen hs] at h
    cases h
  · obtain ⟨m1, q1⟩ := p1
    rcases hb : mapLookup st.ipmap key with _ | b
    · by_cases hq : q1.length < l.maxCap
      · rw [allow_new_sweep now hlen hb hs hq] at h
        obtain ⟨rfl, -⟩ := by
          simpa only [Option.some.injEq, Prod.mk.injEq] using h
        rfl
      · rw [allow_new_sweep_full now hlen hb hs hq] at h
        cases h
    · rw [allow_found_sweep now hlen hb hs] at h
      obtain ⟨rfl, -⟩ := by
        simpa only [Option.some.injEq, Prod.mk.injEq] using h
      rfl

/-- The bucket written back for the checked key: after any completed check the
map holds, at that key, exactly the admitStep result for the bucket that was
looked up (or freshly synthesized). -/
theorem allow_lookup_self {l : Limiter} {st st' : Store} {key : ℕ} {now : ℤ}
    {res : Bool × Bool} (h : l.allow st key now = some (res, st')) :
    mapLookup st'.ipmap key =
      some ((admitStep l ((mapLookup st.ipmap key).getD
        { left := l.burst, mtime := 0 }) now).2) := by
  by_cases hsw : st.ipmap.length ≥ l.maxCap
  · rcases hs : sweep (l.maxCap / 10) st.ipmap st.keys with _ | p1
    · rw [allow_sweep_panic now (by omega) hs] at h
      cases h
    · obtain ⟨m1, q1⟩ := p1
      rcases hb : mapLookup st.ipmap key with _ | b
      · by_cases hq : q1.length < l.maxCap
        · rw [allow_new_sweep now (by omega) hb hs hq] at h
          obtain ⟨-, rfl⟩ := by
            simpa only [Option.some.injEq, Prod.mk.injEq] using h
          exact mapLookup_mapInsert_self m1 key _
        · rw [allow_new_sweep_full now (by omega) hb hs hq] at h
          cases h
      · rw [allow_found_sweep now (by omega) hb hs] at h
        obtain ⟨-, rfl⟩ := by
          simpa only [Option.some.injEq, Prod.mk.injEq] using h
        exact mapLookup_mapInsert_self m1 key _
  · push_neg at hsw
    rcases hb : mapLookup st.ipmap key with _ | b
    · by_cases hq : st.keys.length < l.maxCap
      · rw [allow_new_no_sweep now hsw hb hq] at h
        obtain ⟨-, rfl⟩ := by
          simpa only [Option.some.injEq, Prod.mk.injEq] using h
        exact mapLookup_mapInsert_self st.ipmap key _
      · exfalso
        revert h
        unfold Limiter.allow
        rw [hb, if_neg (by omega)]
        simp [hq]
    · rw [allow_found_no_sweep now hsw hb] at h
      obtain ⟨-, rfl⟩ := by
        simpa only [Option.some.injEq, Prod.mk.injEq] using h
      exact mapLookup_mapInsert_self st.ipmap key _

/-! ### Claim theorems -/

/-- C1: with burst `B ≥ 1` and no time elapsing between checks (so no refill
occurs), the first `B` consecutive checks on a fresh key are admitted and the
`(B+1)`-th is rejected: the outcomes of `B+1` immediate same-key checks from
the empty store are exactly `B` admissions followed by one rejection. -/
theorem c1_exact_burst (l : Limiter) (B : ℕ) (key : ℕ) (now : ℤ)
    (hB : 1 ≤ B) (hburst : l.burst = (B : ℚ)) (hcap : 2 ≤ l.maxCap) :
    l.outcomes emptyStore (List.replicate (B + 1) (key, now)) =
      some (List.replicate B true ++ [false]) := by
  have hb1 : (1 : ℚ) ≤ l.burst := by
    rw [hburst]
    exact_mod_cast hB
  have hcast : l.burst - 1 = ((B - 1 : ℕ) : ℚ) := by
    rw [hburst, Nat.cast_sub hB, Nat.cast_one]
  have h0 : l.allow emptyStore key now = some ((true, false),
      { ipmap := [(key, { left := ((B - 1 : ℕ) : ℚ), mtime := now })], keys := [key] }) := by
    rw [allow_new_no_sweep now (by simp [emptyStore]; omega) (by rfl)
      (by simp [emptyStore]; omega)]
    rw [admitStep_fresh_one now hb1]
    simp [emptyStore, mapInsert, mapLookup, hcast]
  rw [List.replicate_succ]
  simp only [Limiter.outcomes]
  rw [h0]
  dsimp only
  rw [outcomes_const_key hcap key now B (B - 1)]
  have hmin : min B (B - 1) = B - 1 := by omega
  have hone : B - (B - 1) = 1 := by omega
  rw [hmin, hone]
  simp only [Option.map_some', Option.some.injEq, List.replicate_one]
  rw [← List.cons_append, ← List.replicate_succ]
  have hBsucc : B - 1 + 1 = B := by omega
  rw [hBsucc]

/-- C2: every completed check stamps the checked key's bucket with the current
time, on rejection as well as on admission; consequently after a rejection
that left an empty bucket, waiting at least one and less than two refill
intervals yields exactly one more admission (the next immediate check is
rejected again). -/
theorem c2_timestamp_update :
    (∀ (l : Limiter) (st st' : Store) (key : ℕ) (now : ℤ) (res : Bool × Bool),
        l.allow st key now = some (res, st') →
        (mapLookup st'.ipmap key).map Bucket.mtime = some now) ∧
    (∀ (l : Limiter) (st : Store) (key : ℕ) (t0 t1 : ℤ),
        1 ≤ l.burst → 0 < l.refillEvery →
        mapLookup st.ipmap key = some { left := 0, mtime := t0 } → t0 ≠ 0 →
        st.ipmap.length < l.maxCap →
        l.refillEvery ≤ ((t1 - t0 : ℤ) : ℚ) →
        ((t1 - t0 : ℤ) : ℚ) < 2 * l.refillEvery →
        (l.allow st key t1).map (fun p => p.1.1) = some true ∧
        ((l.allow st key t1).bind (fun p => l.allow p.2 key t1)).map (fun p => p.1.1)
          = some false) := by
  constructor
  · intro l st st' key now res h
    rw [allow_lookup_self h]
    simp [admitStep_mtime]
  · intro l st key t0 t1 hb1 hr hbkt ht0 hlen hlow hhigh
    have hq1ge1 : (1 : ℚ) ≤ ((t1 - t0 : ℤ) : ℚ) / l.refillEvery := (one_le_div hr).mpr hlow
    have hq1lt2 : ((t1 - t0 : ℤ) : ℚ) / l.refillEvery < 2 := by
      rw [div_lt_iff₀ hr]
      linarith
    have hpos : ((t1 - t0 : ℤ) : ℚ) / l.refillEvery > 0 := by linarith
    have hge1 : 1 ≤ (refill l { left := 0, mtime := t0 } t1).left := by
      unfold refill
      dsimp only
      rw [if_pos ht0, if_pos hpos]
      dsimp only
      split
      · exact hb1
      · linarith
    have hlt2 : (refill l { left := 0, mtime := t0 } t1).left < 2 := by
      unfold refill
      dsimp only
      rw [if_pos ht0, if_pos hpos]
      dsimp only
      split
      · rename_i hgt
        linarith
      · linarith
    have hadmit : admitStep l { left := 0, mtime := t0 } t1 =
        (true,
          { left := (refill l { left := 0, mtime := t0 } t1).left - 1,
            mtime := t1 }) := by
      unfold admitStep
      dsimp only
      rw [if_pos hge1]
    have h1 : l.allow st key t1 = some ((true, false),
        { ipmap := mapInsert st.ipmap key
            { left := (refill l { left := 0, mtime := t0 } t1).left - 1, mtime := t1 },
          keys := st.keys }) := by
      rw [allow_found_no_sweep t1 hlen hbkt, hadmit]
    have hsome : (mapLookup st.ipmap key).isSome = true := by rw [hbkt]; rfl
    have hlook2 : mapLookup (mapInsert st.ipmap key
        { left := (refill l { left := 0, mtime := t0 } t1).left - 1, mtime := t1 }) key =
        some { left := (refill l { left := 0, mtime := t0 } t1).left - 1, mtime := t1 } :=
      mapLookup_mapInsert_self _ _ _
    have hlen2 : (mapInsert st.ipmap key
        { left := (refill l { left := 0, mtime := t0 } t1).left - 1, mtime := t1 }).length
          < l.maxCap := by
      rw [length_mapInsert_present _ hsome]
      exact hlen
    have hrej : ¬ (1 : ℚ) ≤ (refill l { left := 0, mtime := t0 } t1).left - 1 := by
      linarith
    have h2 := @allow_found_no_sweep l
      { ipmap := mapInsert st.ipmap key
          { left := (refill l { left := 0, mtime := t0 } t1).left - 1, mtime := t1 },
        keys := st.keys } key _ t1 hlen2 hlook2
    rw [admitStep_same_reject t1 hrej] at h2
    constructor
    · rw [h1]
      rfl
    · rw [h1]
      dsimp only [Option.bind]
      rw [h2]
      rfl

theorem New_lA :
    New true (some { RefillEvery := 100000000, Burst := 2, MaxBuckets := 100 }) =
      some lA := by
  norm_num [New, lA, defaultConfig]
  decide

/-- C3: along any run from the empty store the bucket map never exceeds
`maxBuckets` entries at any observation point, regardless of how many
distinct keys are presented; and any successful check that found the map at
capacity ran the eviction sweep (reported `evictDone`), i.e. the sweep runs
before an insertion could exceed capacity. -/
theorem c3_capacity_bound :
    (∀ (l : Limiter) (reqs : List (ℕ × ℤ)) (st' : Store), 10 ≤ l.maxCap →
        st' ∈ l.trace emptyStore reqs → st'.ipmap.length ≤ l.maxCap) ∧
    (∀ (l : Limiter) (st st' : Store) (key : ℕ) (now : ℤ) (res : Bool × Bool),
        l.maxCap ≤ st.ipmap.length → l.allow st key now = some (res, st') →
        res.2 = true) := by
  constructor
  · intro l reqs st' hcap hmem
    exact (StInv_trace hcap reqs emptyStore (StInv_empty l) st' hmem).2.2.2
  · intro l st st' key now res hlen h
    exact evict_before_insert hlen h

theorem c3_capacity_bound_witness :
    ({ ipmap := [(7, { left := 1, mtime := 1 })], keys := [7] } : Store).ipmap.length
      ≤ lA.maxCap :=
  c3_capacity_bound.1 lA [(7, 1)] _ (by norm_num [lA]) (by
    have ht : lA.trace emptyStore [(7, 1)] =
        [emptyStore, { ipmap := [(7, { left := 1, mtime := 1 })], keys := [7] }] := by
      with_unfolding_all rfl
    rw [ht]
    simp)

/-- C5: with burst at least one token, the range invariant
`0 ≤ tokens ≤ burst` on every bucket of the store is preserved by every
completed admission check, and the refill step never reduces a bucket's
tokens nor pushes them above `burst`. -/
theorem c5_token_range (l : Limiter) (hburst : 1 ≤ l.burst) :
    (∀ (st st' : Store) (key : ℕ) (now : ℤ) (res : Bool × Bool),
        BucketInv l st → l.allow st key now = some (res, st') → BucketInv l st') ∧
    (∀ (bkt : Bucket) (now : ℤ), bkt.left ≤ l.burst →
        bkt.left ≤ (refill l bkt now).left ∧ (refill l bkt now).left ≤ l.burst) :=
  ⟨fun st st' key now res hinv h => BucketInv_preserved hburst hinv h,
   fun bkt now hub => refill_left_bounds now hub⟩

theorem c5_token_range_witness :
    BucketInv lA { ipmap := [(7, { left := 1, mtime := 1 })], keys := [7] } :=
  (c5_token_range lA (by norm_num [lA])).1 emptyStore _ 7 1 (true, false)
    (fun p hp => absurd hp (List.not_mem_nil p)) (by with_unfolding_all rfl)

/-! ### Runs of distinct fresh keys -/

theorem keys_map_pair (ks : List ℕ) (v : Bucket) :
    ((ks.map (fun k => (k, v))).map Prod.fst) = ks := by
  induction ks with
  | nil => rfl
  | cons k rest ih => simp only [List.map_cons, ih]

theorem lookup_map_pair_of_not_mem {ks : List ℕ} {key : ℕ} (v : Bucket)
    (h : key ∉ ks) : mapLookup (ks.map (fun k => (k, v))) key = none := by
  induction ks with
  | nil => rfl
  | cons k rest ih =>
    simp only [List.mem_cons] at h
    push_neg at h
    simp only [List.map_cons, mapLookup]
    rw [if_neg (fun he => h.1 he.symm)]
    exact ih h.2

theorem lookup_map_pair_of_mem {ks : List ℕ} {key : ℕ} (v : Bucket)
    (h : key ∈ ks) : mapLookup (ks.map (fun k => (k, v))) key = some v := by
  induction ks with
  | nil => cases h
  | cons k rest ih =>
    simp only [List.map_cons, mapLookup]
    by_cases hk : k = key
    · rw [if_pos hk]
    · rw [if_neg hk]
      rcases List.mem_cons.mp h with h | h
      · exact absurd h.symm hk
      · exact ih h

theorem run_append (l : Limiter) : ∀ (a b : List (ℕ × ℤ)) (st : Store),
    l.run st (a ++ b) = (l.run st a).bind (fun st1 => l.run st1 b) := by
  intro a
  induction a with
  | nil => intro b st; rfl
  | cons kt rest ih =>
    intro b st
    obtain ⟨k, t⟩ := kt
    simp only [List.cons_append, Limiter.run]
    rcases ha : l.allow st k t with _ | pr
    · rfl
    · obtain ⟨res, st1⟩ := pr
      exact ih b st1

theorem run_fill {l : Limiter} (hb : 1 ≤ l.burst) (now : ℤ) :
    ∀ (ks done : List ℕ), (done ++ ks).Nodup → (done ++ ks).length ≤ l.maxCap →
      l.run (fillStore done { left := l.burst - 1, mtime := now })
          (ks.map (fun k => (k, now))) =
        some (fillStore (done ++ ks) { left := l.burst - 1, mtime := now }) := by
  intro ks
  induction ks with
  | nil =>
    intro done _ _
    simp [Limiter.run]
  | cons k rest ih =>
    intro done hnd hlen
    obtain ⟨hd1, hd2, hdisj⟩ := List.nodup_append.mp hnd
    have hk : k ∉ done := fun hc => hdisj hc (List.mem_cons_self _ _)
    have hlook : mapLookup (fillStore done { left := l.burst - 1, mtime := now }).ipmap k
        = none := lookup_map_pair_of_not_mem _ hk
    have hlens : done.length + (k :: rest).length ≤ l.maxCap := by
      simpa using hlen
    have hlen1 : (fillStore done { left := l.burst - 1, mtime := now }).ipmap.length
        < l.maxCap := by
      simp only [fillStore, List.length_map]
      simp only [List.length_cons] at hlens
      omega
    have hq1 : (fillStore done { left := l.burst - 1, mtime := now }).keys.length
        < l.maxCap := by
      simp only [fillStore]
      simp only [List.length_cons] at hlens
      omega
    simp only [List.map_cons, Limiter.run]
    rw [allow_new_no_sweep now hlen1 hlook hq1, admitStep_fresh_one now hb]
    have hip : mapInsert (fillStore done { left := l.burst - 1, mtime := now }).ipmap k
        (true, { left := l.burst - 1, mtime := now }).2 =
        (fillStore (done ++ [k]) { left := l.burst - 1, mtime := now }).ipmap := by
      rw [mapInsert_absent _ hlook]
      simp [fillStore]
    rw [hip]
    have hks : (fillStore done { left := l.burst - 1, mtime := now }).keys ++ [k] =
        (fillStore (done ++ [k]) { left := l.burst - 1, mtime := now }).keys := rfl
    rw [hks]
    have hrec := ih (done ++ [k])
      (by rwa [List.append_assoc, List.singleton_append])
      (by rw [List.append_assoc, List.singleton_append]; exact hlen)
    dsimp only
    rw [hrec, List.append_assoc, List.singleton_append]

theorem sweep_fill (v : Bucket) : ∀ (n : ℕ) (ks : List ℕ), ks.Nodup → n ≤ ks.length →
    sweep n (ks.map (fun k => (k, v))) ks =
      some ((ks.drop n).map (fun k => (k, v)), ks.drop n) := by
  intro n
  induction n with
  | zero =>
    intro ks _ _
    simp [sweep]
  | succ n ih =>
    intro ks hnd hlen
    cases ks with
    | nil => simp at hlen
    | cons k rest =>
      have hdel : mapDelete ((k :: rest).map (fun k => (k, v))) k =
          rest.map (fun k => (k, v)) := by
        simp only [List.map_cons, mapDelete, if_pos rfl]
        apply mapDelete_of_not_mem
        rw [keys_map_pair]
        exact (List.nodup_cons.mp hnd).1
      simp only [sweep, hdel, List.drop_succ_cons]
      exact ih rest (List.nodup_cons.mp hnd).2 (by simpa using hlen)

/-- The check of one more fresh key against a full store: the sweep evicts the
oldest tenth, then the new key is admitted and appended. -/
theorem allow_full_fill {l : Limiter} (hb : 1 ≤ l.burst) (hcap : 10 ≤ l.maxCap)
    {ks : List ℕ} {kx : ℕ} (now : ℤ) (hnd : ks.Nodup) (hkx : kx ∉ ks)
    (hlen : ks.length = l.maxCap) :
    l.allow (fillStore ks { left := l.burst - 1, mtime := now }) kx now =
      some ((true, true),
        fillStore (ks.drop (l.maxCap / 10) ++ [kx])
          { left := l.burst - 1, mtime := now }) := by
  have hlook : mapLookup (fillStore ks { left := l.burst - 1, mtime := now }).ipmap kx
      = none := lookup_map_pair_of_not_mem _ hkx
  have hsw : l.maxCap ≤ (fillStore ks { left := l.burst - 1, mtime := now }).ipmap.length := by
    simp [fillStore, hlen]
  have hs := sweep_fill { left := l.burst - 1, mtime := now } (l.maxCap / 10) ks hnd
    (by rw [hlen]; exact Nat.div_le_self _ _)
  have hdiv : 1 ≤ l.maxCap / 10 := by omega
  have hq : (ks.drop (l.maxCap / 10)).length < l.maxCap := by
    rw [List.length_drop, hlen]
    omega
  rw [allow_new_sweep now hsw hlook hs hq, admitStep_fresh_one now hb]
  have hip : mapInsert ((ks.drop (l.maxCap / 10)).map (fun k =>
      (k, { left := l.burst - 1, mtime := now }))) kx
      (true, { left := l.burst - 1, mtime := now }).2 =
      (fillStore (ks.drop (l.maxCap / 10) ++ [kx])
        { left := l.burst - 1, mtime := now }).ipmap := by
    rw [mapInsert_absent _ (lookup_map_pair_of_not_mem _
      (fun hc => hkx (List.drop_subset _ _ hc)))]
    simp [fillStore]
  rw [hip]
  rfl

/-- Below capacity (map and queue), a check's admit/reject outcome depends
only on the looked-up bucket. -/
theorem outcome_of_allow_no_sweep (l : Limiter) (st : Store) (key : ℕ) (now : ℤ)
    (hlen : st.ipmap.length < l.maxCap) (hq : st.keys.length < l.maxCap) :
    (l.allow st key now).map (fun p => p.1.1) =
      some ((admitStep l ((mapLookup st.ipmap key).getD
        { left := l.burst, mtime := 0 }) now).1) := by
  rcases hb : mapLookup st.ipmap key with _ | b
  · rw [allow_new_no_sweep now hlen hb hq]
    rfl
  · rw [allow_found_no_sweep now hlen hb]
    rfl

/-- C9 (amended): as long as the map is strictly below capacity with room for
one more key — so no eviction sweep can run — an admission check for key `A`
leaves any distinct key `B`'s bucket unchanged, and the admit/reject outcome
of `B`'s next check is the same as it would have been without `A`'s check. -/
theorem c9_isolation_amended (l : Limiter) (st : Store) (A B : ℕ) (now : ℤ)
    (hAB : A ≠ B) (hlen : st.ipmap.length + 1 < l.maxCap)
    (hq : st.keys.length + 1 < l.maxCap) :
    ∃ res st', l.allow st A now = some (res, st') ∧
      mapLookup st'.ipmap B = mapLookup st.ipmap B ∧
      ∀ now', (l.allow st' B now').map (fun p => p.1.1) =
        (l.allow st B now').map (fun p => p.1.1) := by
  have hBA : B ≠ A := fun h => hAB h.symm
  have hlen0 : st.ipmap.length < l.maxCap := by omega
  have hq0 : st.keys.length < l.maxCap := by omega
  rcases hb : mapLookup st.ipmap A with _ | b
  · refine ⟨_, _, allow_new_no_sweep now hlen0 hb hq0, ?_, ?_⟩
    · exact mapLookup_mapInsert_ne st.ipmap _ hBA
    · intro now'
      rw [outcome_of_allow_no_sweep l _ B now'
          (by dsimp only; rw [length_mapInsert_absent _ hb]; omega)
          (by dsimp only; rw [List.length_append, List.length_singleton]; omega),
        outcome_of_allow_no_sweep l st B now' hlen0 hq0]
      rw [mapLookup_mapInsert_ne st.ipmap _ hBA]
  · have hsome : (mapLookup st.ipmap A).isSome = true := by rw [hb]; rfl
    refine ⟨_, _, allow_found_no_sweep now hlen0 hb, ?_, ?_⟩
    · exact mapLookup_mapInsert_ne st.ipmap _ hBA
    · intro now'
      rw [outcome_of_allow_no_sweep l _ B now'
          (by dsimp only; rw [length_mapInsert_present _ hsome]; omega)
          (by dsimp only; omega),
        outcome_of_allow_no_sweep l st B now' hlen0 hq0]
      rw [mapLookup_mapInsert_ne st.ipmap _ hBA]

/-- C9 (counterexample): at a full store reached from the empty store by 100
distinct keys with burst 1, key 0's next check rejects; but one admission
check for the distinct key 100 evicts key 0's bucket entirely, and key 0's
next check then admits — a check for one key changed another key's bucket and
its next outcome. -/
theorem c9_counterexample :
    lB.run emptyStore ((List.range 100).map (fun k => (k, 1))) =
        some (fillStore (List.range 100) { left := lB.burst - 1, mtime := 1 }) ∧
    (lB.allow (fillStore (List.range 100) { left := lB.burst - 1, mtime := 1 }) 0 1).map
        (fun p => p.1.1) = some false ∧
    ((lB.allow (fillStore (List.range 100) { left := lB.burst - 1, mtime := 1 }) 100 1).bind
        (fun p => lB.allow p.2 0 1)).map (fun p => p.1.1) = some true ∧
    (lB.allow (fillStore (List.range 100) { left := lB.burst - 1, mtime := 1 }) 100 1).map
        (fun p => mapLookup p.2.ipmap 0) = some none ∧
    mapLookup (fillStore (List.range 100) { left := lB.burst - 1, mtime := 1 }).ipmap 0 =
        some { left := lB.burst - 1, mtime := 1 } := by
  have hb : (1 : ℚ) ≤ lB.burst := by norm_num [lB]
  have hcap : 10 ≤ lB.maxCap := by norm_num [lB]
  have hnd : (List.range 100).Nodup := List.nodup_range 100
  have hlen : (List.range 100).length = lB.maxCap := by simp [lB]
  have h0mem : (0 : ℕ) ∈ List.range 100 := by decide
  have h100 : (100 : ℕ) ∉ List.range 100 := by decide
  have h0drop : (0 : ℕ) ∉ (List.range 100).drop (lB.maxCap / 10) := by
    have : lB.maxCap / 10 = 10 := by norm_num [lB]
    rw [this]
    decide
  have hlook0 : mapLookup (fillStore (List.range 100)
      { left := lB.burst - 1, mtime := 1 }).ipmap 0 =
      some { left := lB.burst - 1, mtime := 1 } :=
    lookup_map_pair_of_mem _ h0mem
  have hrej : ¬ (1 : ℚ) ≤ lB.burst - 1 := by norm_num [lB]
  have hfull := allow_full_fill hb hcap 1 hnd h100 hlen
  refine ⟨?_, ?_, ?_, ?_, hlook0⟩
  · have := run_fill hb 1 (List.range 100) [] (by simpa using hnd) (by simp [lB])
    simpa using this
  · have hsw : lB.maxCap ≤ (fillStore (List.range 100)
        { left := lB.burst - 1, mtime := 1 }).ipmap.length := by
      simp [fillStore, lB]
    have hs := sweep_fill { left := lB.burst - 1, mtime := 1 } (lB.maxCap / 10)
      (List.range 100) hnd (by rw [hlen]; exact Nat.div_le_self _ _)
    rw [allow_found_sweep 1 hsw hlook0 hs, admitStep_same_reject 1 hrej]
    rfl
  · rw [hfull]
    have hlookB : mapLookup (fillStore ((List.range 100).drop (lB.maxCap / 10) ++ [100])
        { left := lB.burst - 1, mtime := 1 }).ipmap 0 = none := by
      apply lookup_map_pair_of_not_mem
      intro hc
      rcases List.mem_append.mp hc with hc | hc
      · exact h0drop hc
      · simp at hc
    have hlenB : (fillStore ((List.range 100).drop (lB.maxCap / 10) ++ [100])
        { left := lB.burst - 1, mtime := 1 }).ipmap.length < lB.maxCap := by
      simp [fillStore, lB]
    have hqB : (fillStore ((List.range 100).drop (lB.maxCap / 10) ++ [100])
        { left := lB.burst - 1, mtime := 1 }).keys.length < lB.maxCap := by
      simp [fillStore, lB]
    dsimp only [Option.bind]
    rw [allow_new_no_sweep 1 hlenB hlookB hqB, admitStep_fresh_one 1 hb]
    rfl
  · rw [hfull]
    have hlookB : mapLookup (fillStore ((List.range 100).drop (lB.maxCap / 10) ++ [100])
        { left := lB.burst - 1, mtime := 1 }).ipmap 0 = none := by
      apply lookup_map_pair_of_not_mem
      intro hc
      rcases List.mem_append.mp hc with hc | hc
      · exact h0drop hc
      · simp at hc
    simp only [Option.map_some', Option.some.injEq]
    exact hlookB

/-- C4 (amended): presenting `maxBuckets + 1` distinct keys sequentially from
the empty store leaves `maxBuckets - maxBuckets/10 + 1` map entries: the
sweep evicts the oldest tenth of the keys — the very first inserted key among
them — before the newest key is inserted; the newest key is present
afterwards. -/
theorem c4_eviction_amended (l : Limiter) (ks : List ℕ) (kx : ℕ) (now : ℤ)
    (hb : 1 ≤ l.burst) (hcap : 10 ≤ l.maxCap) (hnd : (ks ++ [kx]).Nodup)
    (hlen : ks.length = l.maxCap) :
    ∃ stF, l.run emptyStore ((ks ++ [kx]).map (fun k => (k, now))) = some stF ∧
      stF.ipmap.length = l.maxCap - l.maxCap / 10 + 1 ∧
      (∀ k0 ∈ ks.take (l.maxCap / 10), mapLookup stF.ipmap k0 = none) ∧
      mapLookup stF.ipmap kx = some { left := l.burst - 1, mtime := now } := by
  obtain ⟨hk1, -, hdisj⟩ := List.nodup_append.mp hnd
  have hkx : kx ∉ ks := fun hc => hdisj hc (List.mem_singleton.mpr rfl)
  have hfull := allow_full_fill hb hcap now hk1 hkx hlen
  refine ⟨fillStore (ks.drop (l.maxCap / 10) ++ [kx]) { left := l.burst - 1, mtime := now },
    ?_, ?_, ?_, ?_⟩
  · rw [List.map_append, run_append]
    have hempty : emptyStore = fillStore [] { left := l.burst - 1, mtime := now } := rfl
    rw [hempty, run_fill hb now ks [] (by simpa using hk1)
      (by simp only [List.nil_append]; omega)]
    simp only [List.nil_append]
    dsimp only [Option.bind]
    simp only [List.map_cons, List.map_nil, Limiter.run, hfull]
  · simp only [fillStore, List.length_map, List.length_append, List.length_drop, hlen,
      List.length_singleton]
  · intro k0 hk0
    apply lookup_map_pair_of_not_mem
    have hndtd := hk1
    rw [← List.take_append_drop (l.maxCap / 10) ks] at hndtd
    obtain ⟨-, -, hdisj2⟩ := List.nodup_append.mp hndtd
    intro hc
    rcases List.mem_append.mp hc with hc | hc
    · exact hdisj2 hk0 hc
    · rw [List.mem_singleton] at hc
      exact hkx (hc ▸ List.take_subset _ _ hk0)
  · exact lookup_map_pair_of_mem _ (List.mem_append.mpr (Or.inr (List.mem_singleton.mpr rfl)))

/-- C10: whenever the key-extraction function returns nil or an address that
is not a valid IPv4 address (`To4` returns nil — e.g. a plain IPv6 address),
`ServeHTTP` invokes the downstream handler and leaves the store (bucket map
and eviction queue) completely unchanged. -/
theorem c10_non_ipv4_bypass (l : Limiter) (hash : IP → ℕ) (st : Store)
    (ipOpt : Option IP) (now : ℤ)
    (h : ipOpt = none ∨ ∃ ip, ipOpt = some ip ∧ To4 ip = none) :
    l.serveHTTP hash st ipOpt now = some (Response.downstream, st) := by
  rcases h with rfl | ⟨ip, rfl, hto4⟩
  · rfl
  · unfold Limiter.serveHTTP
    dsimp only
    rw [hto4]

theorem c10_non_ipv4_bypass_witness :
    lA.serveHTTP (fun _ => 0) emptyStore (some (List.replicate 16 1)) 5 =
      some (Response.downstream, emptyStore) :=
  c10_non_ipv4_bypass lA (fun _ => 0) emptyStore (some (List.replicate 16 1)) 5
    (Or.inr ⟨List.replicate 16 1, rfl, by decide⟩)

theorem New_lC :
    New true (some { RefillEvery := 500000000, Burst := 2, MaxBuckets := 100 }) =
      some lC := by
  norm_num [New, lC, defaultConfig]
  decide

/-- C7 (counterexample): for the fractional interval 500ms the code computes
Retry-After 1 (truncation), while `ceil(0.5s) + 1 = 2`: the claimed formula
fails on fractional-second intervals. -/
theorem c7_counterexample :
    (New true (some { RefillEvery := 500000000, Burst := 2, MaxBuckets := 100 })).map
        (fun l => l.retryAfter) = some 1 ∧
      ⌈((500000000 : ℤ) : ℚ) / ((1000000000 : ℕ) : ℚ)⌉ + 1 = 2 ∧ ((1 : ℤ) ≠ 2) := by
  refine ⟨?_, ?_, by norm_num⟩
  · rw [New_lC]
    rfl
  · have h1 : ((500000000 : ℤ) : ℚ) / ((1000000000 : ℕ) : ℚ) = 1 / 2 := by norm_num
    rw [h1]
    have h2 : ⌈(1 / 2 : ℚ)⌉ = 1 := by
      rw [Int.ceil_eq_iff]
      norm_num
    rw [h2]
    norm_num

/-- C7 (amended): the Retry-After value is computed once at construction time
as the refill interval truncated to whole seconds plus one, i.e.
`⌊interval in seconds⌋ + 1` for every positive interval; and every rejection
response carries exactly this construction-time value. -/
theorem c7_retry_after_amended :
    (∀ (cfg : Config) (l : Limiter), 0 < cfg.RefillEvery →
        New true (some cfg) = some l →
        l.retryAfter = ⌊(cfg.RefillEvery : ℚ) / ((1000000000 : ℕ) : ℚ)⌋ + 1) ∧
    (∀ (l : Limiter) (hash : IP → ℕ) (st : Store) (ip : IP) (now : ℤ) (r : Response)
        (st' : Store), l.serveHTTP hash st (some ip) now = some (r, st') →
        r ≠ Response.downstream → r = Response.tooManyRequests l.retryAfter) := by
  constructor
  · intro cfg l hpos h
    unfold New at h
    simp only [Bool.not_true, Bool.false_eq_true, if_false, Option.getD_some,
      Option.some.injEq] at h
    rw [← h]
    dsimp only
    have hint : (if cfg.RefillEvery ≤ 0 then defaultConfig.RefillEvery
        else cfg.RefillEvery) = cfg.RefillEvery := if_neg (by omega)
    rw [hint]
    have hmod : cfg.RefillEvery.tmod 1000000000 = cfg.RefillEvery % 1000000000 :=
      Int.tmod_eq_emod (le_of_lt hpos) (by norm_num)
    rw [hmod]
    have hdiv : (cfg.RefillEvery - cfg.RefillEvery % 1000000000).tdiv 1000000000 =
        (cfg.RefillEvery - cfg.RefillEvery % 1000000000) / 1000000000 :=
      Int.tdiv_eq_ediv (by omega) (by norm_num)
    rw [hdiv, Rat.floor_intCast_div_natCast]
    simp only [Nat.cast_ofNat]
    omega
  · intro l hash st ip now r st' h hne
    unfold Limiter.serveHTTP at h
    dsimp only at h
    rcases h4 : To4 ip with _ | ip4
    · rw [h4] at h
      simp only [Option.some.injEq, Prod.mk.injEq] at h
      exact absurd h.1.symm hne
    · rw [h4] at h
      rcases ha : l.allow st (hash ip) now with _ | pr
      · rw [ha] at h
        cases h
      · obtain ⟨⟨allowed, ev⟩, st1⟩ := pr
        rw [ha] at h
        dsimp only at h
        by_cases hal : allowed = true
        · rw [if_pos hal] at h
          simp only [Option.some.injEq, Prod.mk.injEq] at h
          exact absurd h.1.symm hne
        · rw [if_neg hal] at h
          simp only [Option.some.injEq, Prod.mk.injEq] at h
          rw [← h.1]

theorem c7_retry_after_amended_witness :
    lC.retryAfter = ⌊((500000000 : ℤ) : ℚ) / ((1000000000 : ℕ) : ℚ)⌋ + 1 :=
  c7_retry_after_amended.1 { RefillEvery := 500000000, Burst := 2, MaxBuckets := 100 } lC
    (by norm_num) New_lC

/-- C8 (counterexample): construction with a non-positive refill interval does
not abort — `New` returns a limiter. -/
theorem c8_counterexample :
    (New true (some { RefillEvery := 0, Burst := 2, MaxBuckets := 100 })).isSome = true := by
  rfl

/-- C8 (amended): a nil inner handler aborts construction (panics, modelled
as `none`) with no limiter returned; a non-positive refill interval however
is silently replaced by the default 100ms interval and construction
succeeds. -/
theorem c8_fail_fast_amended :
    (∀ cfg : Option Config, New false cfg = none) ∧
    (∀ cfg : Config, cfg.RefillEvery ≤ 0 →
        (New true (some cfg)).map (fun l => l.refillEvery) =
          some ((defaultConfig.RefillEvery : ℚ))) := by
  constructor
  · intro cfg
    rfl
  · intro cfg hle
    unfold New
    dsimp only [Option.getD_some]
    rw [if_pos hle]
    rfl

theorem c8_fail_fast_amended_witness :
    (New true (some { RefillEvery := 0, Burst := 2, MaxBuckets := 100 })).map
        (fun l => l.refillEvery) = some ((defaultConfig.RefillEvery : ℚ)) :=
  c8_fail_fast_amended.2 { RefillEvery := 0, Burst := 2, MaxBuckets := 100 } (by norm_num)

/-- C4 (counterexample): with `maxBuckets = 100`, presenting 101 distinct keys
sequentially from the empty store leaves 91 map entries, not 100 as claimed. -/
theorem c4_counterexample :
    (lA.run emptyStore ((List.range 101).map (fun k => (k, 1)))).map
        (fun st => st.ipmap.length) = some 91 ∧ (91 : ℕ) ≠ 100 := by
  have hb : (1 : ℚ) ≤ lA.burst := by norm_num [lA]
  have hcap : 10 ≤ lA.maxCap := by norm_num [lA]
  have hnd : (List.range 100 ++ [100]).Nodup := by
    rw [← List.range_succ]
    exact List.nodup_range 101
  obtain ⟨hk1, -, -⟩ := List.nodup_append.mp hnd
  have hkx : (100 : ℕ) ∉ List.range 100 := by decide
  have hlen : (List.range 100).length = lA.maxCap := by simp [lA]
  have hfull := allow_full_fill hb hcap 1 hk1 hkx hlen
  refine ⟨?_, by norm_num⟩
  rw [List.range_succ, List.map_append, run_append]
  have hempty : emptyStore = fillStore [] { left := lA.burst - 1, mtime := 1 } := rfl
  rw [hempty, run_fill hb 1 (List.range 100) [] (by simpa using hk1) (by simp [lA])]
  simp only [List.nil_append]
  dsimp only [Option.bind]
  simp only [List.map_cons, List.map_nil, Limiter.run, hfull]
  simp only [Option.map_some', fillStore, List.length_map, List.length_append,
    List.length_drop, List.length_range, List.length_singleton]
  norm_num [lA]

theorem c4_eviction_amended_witness :
    ∃ stF, lA.run emptyStore ((List.range 100 ++ [100]).map (fun k => (k, 1))) = some stF ∧
      stF.ipmap.length = lA.maxCap - lA.maxCap / 10 + 1 ∧
      (∀ k0 ∈ (List.range 100).take (lA.maxCap / 10), mapLookup stF.ipmap k0 = none) ∧
      mapLookup stF.ipmap 100 = some { left := lA.burst - 1, mtime := 1 } :=
  c4_eviction_amended lA (List.range 100) 100 1 (by norm_num [lA]) (by norm_num [lA])
    (by rw [← List.range_succ]; exact List.nodup_range 101) (by simp [lA])

/-- Checking the current queue head while the map is full orphans that key:
the sweep dequeues and deletes it, the write-back re-inserts it into the map,
but it is never re-queued.  Afterwards the map holds one more entry than the
queue — the bookkeeping the panic-freedom argument relies on is broken. -/
theorem orphan_step (l : Limiter) (k0 : ℕ) (rest : List ℕ) (now : ℤ)
    (hcap : 10 ≤ l.maxCap) (hnd : (k0 :: rest).Nodup)
    (hlen : (k0 :: rest).length = l.maxCap) :
    ∃ res st', l.allow (fillStore (k0 :: rest) { left := l.burst - 1, mtime := now })
        k0 now = some (res, st') ∧
      st'.ipmap.length = st'.keys.length + 1 ∧
      (mapLookup st'.ipmap k0).isSome = true ∧ k0 ∉ st'.keys := by
  have hlook : mapLookup (fillStore (k0 :: rest)
      { left := l.burst - 1, mtime := now }).ipmap k0 =
      some { left := l.burst - 1, mtime := now } :=
    lookup_map_pair_of_mem _ (List.mem_cons_self _ _)
  have hsw : l.maxCap ≤ (fillStore (k0 :: rest)
      { left := l.burst - 1, mtime := now }).ipmap.length := by
    simp only [fillStore, List.length_map]
    omega
  have hs := sweep_fill { left := l.burst - 1, mtime := now } (l.maxCap / 10)
    (k0 :: rest) hnd (by rw [hlen]; exact Nat.div_le_self _ _)
  have hk0drop : k0 ∉ (k0 :: rest).drop (l.maxCap / 10) := by
    obtain ⟨m, hm⟩ : ∃ m, l.maxCap / 10 = m + 1 := ⟨l.maxCap / 10 - 1, by omega⟩
    rw [hm, List.drop_succ_cons]
    intro hc
    exact (List.nodup_cons.mp hnd).1 (List.drop_subset _ _ hc)
  have hlookd : mapLookup (((k0 :: rest).drop (l.maxCap / 10)).map
      (fun k => (k, { left := l.burst - 1, mtime := now }))) k0 = none :=
    lookup_map_pair_of_not_mem _ hk0drop
  refine ⟨_, _, allow_found_sweep now hsw hlook hs, ?_, ?_, hk0drop⟩
  · dsimp only
    rw [mapInsert_absent _ hlookd]
    simp only [List.length_append, List.length_map, List.length_singleton]
  · dsimp only
    rw [mapLookup_mapInsert_self]
    rfl

/-- C6 evidence at a concrete reachable state: limiter `lB`
(burst 1, `maxBuckets` 100); the store reached from empty by the 100 distinct
keys `0..99`; one more request for key `0` (the current queue head) leaves a
map of 91 entries but a queue of only 90 — key `0` is in the map yet no
longer queued, so repeating the pattern drains the queue while the map stays
full, until the sweep's non-blocking receive hits its panic branch. -/
theorem c6_orphan_concrete :
    lB.run emptyStore ((List.range 100).map (fun k => (k, 1))) =
        some (fillStore (List.range 100) { left := lB.burst - 1, mtime := 1 }) ∧
    (lB.allow (fillStore (List.range 100) { left := lB.burst - 1, mtime := 1 }) 0 1).map
        (fun p => (p.2.ipmap.length, p.2.keys.length,
          decide (0 ∈ p.2.keys), (mapLookup p.2.ipmap 0).isSome)) =
      some (91, 90, false, true) := by
  constructor
  · have hb : (1 : ℚ) ≤ lB.burst := by norm_num [lB]
    have := run_fill hb 1 (List.range 100) []
      (by simpa using List.nodup_range 100) (by simp [lB])
    simpa using this
  · have hd10 : lB.maxCap / 10 = 10 := by norm_num [lB]
    have h0mem : (0 : ℕ) ∈ List.range 100 := by decide
    have h0drop : (0 : ℕ) ∉ (List.range 100).drop (lB.maxCap / 10) := by
      rw [hd10]
      decide
    have hlook : mapLookup (fillStore (List.range 100)
        { left := lB.burst - 1, mtime := 1 }).ipmap 0 =
        some { left := lB.burst - 1, mtime := 1 } :=
      lookup_map_pair_of_mem _ h0mem
    have hsw : lB.maxCap ≤ (fillStore (List.range 100)
        { left := lB.burst - 1, mtime := 1 }).ipmap.length := by
      simp [fillStore, lB]
    have hs := sweep_fill { left := lB.burst - 1, mtime := 1 } (lB.maxCap / 10)
      (List.range 100) (List.nodup_range 100)
      (by simp only [List.length_range]; rw [hd10]; omega)
    have hlookd : mapLookup (((List.range 100).drop (lB.maxCap / 10)).map
        (fun k => (k, { left := lB.burst - 1, mtime := 1 }))) 0 = none :=
      lookup_map_pair_of_not_mem _ h0drop
    rw [allow_found_sweep 1 hsw hlook hs, Option.map_some']
    simp only [Option.some.injEq, Prod.mk.injEq]
    refine ⟨?_, ?_, ?_, ?_⟩
    · dsimp only
      rw [mapInsert_absent _ hlookd]
      simp only [List.length_append, List.length_map, List.length_drop,
        List.length_range, List.length_singleton, hd10]
    · dsimp only
      simp only [List.length_drop, List.length_range, hd10]
    · dsimp only
      exact decide_eq_false h0drop
    · dsimp only
      rw [mapLookup_mapInsert_self]
      rfl

theorem c1_exact_burst_witness :
    lA.outcomes emptyStore (List.replicate 3 (7, 1)) =
      some (List.replicate 2 true ++ [false]) :=
  c1_exact_burst lA 2 7 1 (by norm_num) (by norm_num [lA]) (by norm_num [lA])

theorem c2_timestamp_update_witness :
    (lC2.allow { ipmap := [(9, { left := 0, mtime := 5 })], keys := [9] } 9 7).map
        (fun p => p.1.1) = some true ∧
      ((lC2.allow { ipmap := [(9, { left := 0, mtime := 5 })], keys := [9] } 9 7).bind
        (fun p => lC2.allow p.2 9 7)).map (fun p => p.1.1) = some false :=
  c2_timestamp_update.2 lC2 { ipmap := [(9, { left := 0, mtime := 5 })], keys := [9] } 9 5 7
    (by norm_num [lC2]) (by norm_num [lC2]) (by rfl) (by norm_num)
    (by norm_num [lC2]) (by norm_num [lC2]) (by norm_num [lC2])

theorem c9_isolation_amended_witness :
    ∃ res st', lA.allow emptyStore 3 1 = some (res, st') ∧
      mapLookup st'.ipmap 4 = mapLookup emptyStore.ipmap 4 ∧
      ∀ now', (lA.allow st' 4 now').map (fun p => p.1.1) =
        (lA.allow emptyStore 4 now').map (fun p => p.1.1) :=
  c9_isolation_amended lA emptyStore 3 4 1 (by norm_num) (by norm_num [lA, emptyStore])
    (by norm_num [lA, emptyStore])

end IpRateLimit
